import Mathlib

/-!
Shallow embedding of `src/recursiveshadowcasting3d-rs/src/display.rs`
(3D recursive shadowcasting).

Coordinates are modelled by `ℚ` instead of `f32`.  All rectangle-algebra
operations of the source (`max`, `min`, comparisons, `±0.5` offsets) are
exact on floats, so the `ℚ` model is faithful for them; divisions are
modelled by exact rational division (documented at each use site).

The point-set semantics of a rectangle is the half-open box
`[sx, ex) × [sy, ey)`; a rectangle failing `is_valid` denotes the empty set.
-/

namespace Shadow3d

/-- `struct Rect` from display.rs: `sx, sy, ex, ey` (ends, not lengths). -/
structure Rect where
  sx : ℚ
  sy : ℚ
  ex : ℚ
  ey : ℚ
deriving DecidableEq, Repr

/-- `Rect::is_valid`: `self.sx < self.ex && self.sy < self.ey`. -/
def Rect.is_valid (r : Rect) : Bool :=
  decide (r.sx < r.ex) && decide (r.sy < r.ey)

/-- `Rect::intersects`: strict overlap test. -/
def Rect.intersects (a b : Rect) : Bool :=
  decide (a.sx < b.ex) && decide (a.ex > b.sx) &&
  decide (a.sy < b.ey) && decide (a.ey > b.sy)

/-- `Rect::intersection`: `None` when `!intersects`; otherwise the
component-wise max-of-starts / min-of-ends rectangle, or `None` if that
result is invalid. -/
def Rect.intersection (a b : Rect) : Option Rect :=
  if ¬ a.intersects b then none
  else
    let result : Rect := ⟨max a.sx b.sx, max a.sy b.sy, min a.ex b.ex, min a.ey b.ey⟩
    if result.is_valid then some result else none

/-- `Rect::swap_start_and_end`. -/
def Rect.swap_start_and_end (r : Rect) : Rect :=
  ⟨r.ex, r.ey, r.sx, r.sy⟩

/-- `Rect::ZERO`. -/
def Rect.zero : Rect := ⟨0, 0, 0, 0⟩

/-- `impl Add for Rect` (component-wise). -/
def Rect.add (a b : Rect) : Rect :=
  ⟨a.sx + b.sx, a.sy + b.sy, a.ex + b.ex, a.ey + b.ey⟩

/-- `impl Sub for Rect` (component-wise). -/
def Rect.sub (a b : Rect) : Rect :=
  ⟨a.sx - b.sx, a.sy - b.sy, a.ex - b.ex, a.ey - b.ey⟩

/-- Denotation of a rectangle: the half-open box `[sx, ex) × [sy, ey)`. -/
def Rect.toSet (r : Rect) : Set (ℚ × ℚ) :=
  {p | r.sx ≤ p.1 ∧ p.1 < r.ex ∧ r.sy ≤ p.2 ∧ p.2 < r.ey}

/-- Union of the denotations of a list of rectangles. -/
def unionSet (l : List Rect) : Set (ℚ × ℚ) :=
  {p | ∃ r ∈ l, p ∈ r.toSet}

@[simp] lemma mem_toSet {r : Rect} {p : ℚ × ℚ} :
    p ∈ r.toSet ↔ r.sx ≤ p.1 ∧ p.1 < r.ex ∧ r.sy ≤ p.2 ∧ p.2 < r.ey :=
  Iff.rfl

@[simp] lemma mem_unionSet {l : List Rect} {p : ℚ × ℚ} :
    p ∈ unionSet l ↔ ∃ r ∈ l, p ∈ r.toSet :=
  Iff.rfl

@[simp] lemma unionSet_nil : unionSet [] = ∅ := by
  ext p; simp [unionSet]

@[simp] lemma unionSet_cons {r : Rect} {l : List Rect} :
    unionSet (r :: l) = r.toSet ∪ unionSet l := by
  ext p; simp [unionSet]

lemma is_valid_iff {r : Rect} : r.is_valid = true ↔ r.sx < r.ex ∧ r.sy < r.ey := by
  simp [Rect.is_valid]

lemma intersects_iff {a b : Rect} :
    a.intersects b = true ↔ a.sx < b.ex ∧ b.sx < a.ex ∧ a.sy < b.ey ∧ b.sy < a.ey := by
  simp [Rect.intersects]; tauto

/-- Invalid rectangles denote the empty set. -/
lemma toSet_eq_empty_of_not_valid {r : Rect} (h : ¬ r.is_valid = true) :
    r.toSet = ∅ := by
  rw [is_valid_iff] at h
  push_neg at h
  ext p
  simp only [mem_toSet, Set.mem_empty_iff_false, iff_false]
  rintro ⟨h1, h2, h3, h4⟩
  rcases lt_or_le r.sx r.ex with hx | hx
  · exact absurd (h hx) (not_le.mpr (lt_of_le_of_lt h3 h4))
  · exact absurd (lt_of_le_of_lt h1 h2) (not_lt.mpr hx)

/-- The max-of-starts / min-of-ends rectangle denotes exactly the set
intersection of the two boxes. -/
lemma maxmin_toSet (a b : Rect) :
    (Rect.mk (max a.sx b.sx) (max a.sy b.sy) (min a.ex b.ex) (min a.ey b.ey)).toSet
      = a.toSet ∩ b.toSet := by
  ext p
  simp only [mem_toSet, Set.mem_inter_iff, max_le_iff, lt_min_iff]
  tauto

/-- `intersection a b = none` exactly when the two boxes are disjoint as sets. -/
lemma intersection_eq_none_iff {a b : Rect} :
    a.intersection b = none ↔ a.toSet ∩ b.toSet = ∅ := by
  unfold Rect.intersection
  constructor
  · intro h
    by_cases hi : a.intersects b = true
    · simp only [hi, not_true_eq_false, if_false] at h
      by_cases hv : (Rect.mk (max a.sx b.sx) (max a.sy b.sy) (min a.ex b.ex)
          (min a.ey b.ey)).is_valid = true
      · simp [hv] at h
      · rw [← maxmin_toSet]
        exact toSet_eq_empty_of_not_valid hv
    · rw [← maxmin_toSet]
      apply toSet_eq_empty_of_not_valid
      rw [is_valid_iff]
      rw [intersects_iff] at hi
      push_neg at hi
      rintro ⟨h1, h2⟩
      simp only [max_lt_iff, lt_min_iff] at h1 h2
      exact absurd h2.1.2 (not_lt.mpr (hi h1.2.1 h1.1.2 h2.2.1))
  · intro h
    by_cases hi : a.intersects b = true
    · simp only [hi, not_true_eq_false, if_false]
      have hv : ¬ (Rect.mk (max a.sx b.sx) (max a.sy b.sy) (min a.ex b.ex)
          (min a.ey b.ey)).is_valid = true := by
        intro hv
        rw [is_valid_iff] at hv
        have := maxmin_toSet a b
        rw [h] at this
        have hmem : ((max a.sx b.sx, max a.sy b.sy) : ℚ × ℚ) ∈
            (Rect.mk (max a.sx b.sx) (max a.sy b.sy) (min a.ex b.ex) (min a.ey b.ey)).toSet := by
          simp only [mem_toSet]
          exact ⟨le_refl _, hv.1, le_refl _, hv.2⟩
        rw [this] at hmem
        exact hmem
      simp [hv]
    · simp [hi]

/-- If `intersection a b = some i` then `i` is the max/min rectangle and it is valid. -/
lemma intersection_eq_some {a b i : Rect} (h : a.intersection b = some i) :
    i = Rect.mk (max a.sx b.sx) (max a.sy b.sy) (min a.ex b.ex) (min a.ey b.ey)
      ∧ i.is_valid = true := by
  unfold Rect.intersection at h
  by_cases hi : a.intersects b = true
  · simp only [hi, not_true_eq_false, if_false] at h
    by_cases hv : (Rect.mk (max a.sx b.sx) (max a.sy b.sy) (min a.ex b.ex)
        (min a.ey b.ey)).is_valid = true
    · simp only [hv, if_true, Option.some.injEq] at h
      exact ⟨h.symm, h ▸ hv⟩
    · simp [hv] at h
  · simp [hi] at h

lemma intersection_some_toSet {a b i : Rect} (h : a.intersection b = some i) :
    i.toSet = a.toSet ∩ b.toSet := by
  rw [(intersection_eq_some h).1, maxmin_toSet]

/-!
## Rectangle set-difference (`rectangle_minus_rectangles`)

The inner loop body of `rectangle_minus_rectangles`: one working rectangle
`rect` with one occluder `subtract_rect` — the `if let Some(intersection)`
split into left / right / top-middle / bottom-middle pieces, each kept only
under the source's condition and the final `is_valid` filter.
-/

/-- One step of the subtraction loop: splits `r` around `r ∩ sub`
(left strip, right strip, top and bottom strips of the middle column),
keeping only valid pieces; `r` itself when there is no intersection. -/
def subtractOne (sub r : Rect) : List Rect :=
  match r.intersection sub with
  | none => [r]
  | some i =>
    let splits : List Rect :=
      (if r.sx < i.sx then [⟨r.sx, r.sy, i.sx, r.ey⟩] else []) ++
      (if i.ex < r.ex then [⟨i.ex, r.sy, r.ex, r.ey⟩] else []) ++
      (if r.sy < i.sy then [⟨i.sx, r.sy, i.ex, i.sy⟩] else []) ++
      (if i.ey < r.ey then [⟨i.sx, i.ey, i.ex, r.ey⟩] else [])
    splits.filter (fun q => q.is_valid)

/-- The source's inner `for rect in result` loop appending pieces in order. -/
def flatMapR (f : Rect → List Rect) : List Rect → List Rect
  | [] => []
  | r :: l => f r ++ flatMapR f l

/-- `rectangle_minus_rectangles`: boolean difference of a list of occluder
rectangles from one rectangle, by incremental splitting. -/
def rectangle_minus_rectangles (rectangle : Rect) (rectangles : List Rect) : List Rect :=
  rectangles.foldl (fun result sub => flatMapR (subtractOne sub) result) [rectangle]

@[simp] lemma mem_flatMapR {f : Rect → List Rect} {l : List Rect} {q : Rect} :
    q ∈ flatMapR f l ↔ ∃ r ∈ l, q ∈ f r := by
  induction l with
  | nil => simp [flatMapR]
  | cons a l ih => simp [flatMapR, ih]

/-- Every piece produced by `subtractOne` from a valid rectangle is valid. -/
lemma subtractOne_valid {sub r q : Rect} (hr : r.is_valid = true)
    (hq : q ∈ subtractOne sub r) : q.is_valid = true := by
  unfold subtractOne at hq
  rcases h : r.intersection sub with _ | i
  · rw [h] at hq
    simp only [List.mem_singleton] at hq
    exact hq ▸ hr
  · rw [h] at hq
    exact (List.mem_filter.mp hq).2

lemma mem_if_singleton {c : Prop} [Decidable c] {x q : Rect} :
    q ∈ (if c then [x] else []) ↔ c ∧ q = x := by
  split <;> simp_all

/-- The max/min intersection rectangle sits inside `r` component-wise. -/
lemma intersection_bounds {sub r i : Rect} (h : r.intersection sub = some i) :
    r.sx ≤ i.sx ∧ i.ex ≤ r.ex ∧ r.sy ≤ i.sy ∧ i.ey ≤ r.ey := by
  obtain ⟨hieq, _⟩ := intersection_eq_some h
  subst hieq
  exact ⟨le_max_left _ _, min_le_left _ _, le_max_left _ _, min_le_left _ _⟩

/-- Every piece produced by `subtractOne` denotes a subset of `r` minus `sub`. -/
lemma subtractOne_subset {sub r q : Rect} (hq : q ∈ subtractOne sub r) :
    q.toSet ⊆ r.toSet \ sub.toSet := by
  unfold subtractOne at hq
  rcases h : r.intersection sub with _ | i
  · rw [h] at hq
    simp only [List.mem_singleton] at hq
    subst hq
    intro p hp
    refine ⟨hp, fun hps => ?_⟩
    have hmem := Set.mem_inter hp hps
    rw [intersection_eq_none_iff.mp h] at hmem
    exact hmem
  · rw [h] at hq
    obtain ⟨hieq, hival⟩ := intersection_eq_some h
    rw [is_valid_iff] at hival
    have hisub : i.toSet = r.toSet ∩ sub.toSet := intersection_some_toSet h
    obtain ⟨hisx, hiex, hisy, hiey⟩ := intersection_bounds h
    have hnotin : ∀ p : ℚ × ℚ, p ∈ r.toSet → p ∉ i.toSet → p ∈ r.toSet \ sub.toSet := by
      intro p hpr hpi
      refine ⟨hpr, fun hps => hpi ?_⟩
      rw [hisub]; exact ⟨hpr, hps⟩
    have hq1 := (List.mem_filter.mp hq).1
    simp only [List.mem_append, mem_if_singleton, or_assoc] at hq1
    intro p hp
    rcases hq1 with ⟨hc, he⟩ | ⟨hc, he⟩ | ⟨hc, he⟩ | ⟨hc, he⟩ <;>
      subst he <;> obtain ⟨h1, h2, h3, h4⟩ := hp <;>
      refine hnotin p ⟨by linarith, by linarith, by linarith, by linarith⟩ ?_ <;>
      · intro hpi
        obtain ⟨g1, g2, g3, g4⟩ := hpi
        linarith

/-- Pieces from `subtractOne` avoid the occluder entirely. -/
lemma subtractOne_disjoint_sub {sub r q : Rect} (hq : q ∈ subtractOne sub r) :
    Disjoint q.toSet sub.toSet := by
  rw [Set.disjoint_left]
  intro p hpq hps
  exact (subtractOne_subset hq hpq).2 hps

/-- `subtractOne` covers exactly `r` minus `sub` for a valid `r`. -/
lemma subtractOne_unionSet {sub r : Rect} (hr : r.is_valid = true) :
    unionSet (subtractOne sub r) = r.toSet \ sub.toSet := by
  apply Set.Subset.antisymm
  · intro p hp
    obtain ⟨q, hq, hpq⟩ := hp
    exact subtractOne_subset hq hpq
  · intro p hp
    obtain ⟨hpr, hps⟩ := hp
    unfold subtractOne
    rcases h : r.intersection sub with _ | i
    · exact ⟨r, by simp, hpr⟩
    · obtain ⟨hieq, hival⟩ := intersection_eq_some h
      rw [is_valid_iff] at hival
      have hisub : i.toSet = r.toSet ∩ sub.toSet := intersection_some_toSet h
      obtain ⟨hisx, hiex, hisy, hiey⟩ := intersection_bounds h
      rw [is_valid_iff] at hr
      have hpi : p ∉ i.toSet := by
        rw [hisub]; exact fun hmem => hps hmem.2
      obtain ⟨h1, h2, h3, h4⟩ := hpr
      simp only [mem_toSet, not_and, not_lt] at hpi
      simp only [mem_unionSet, List.mem_filter, List.mem_append, mem_if_singleton, or_assoc]
      by_cases hx1 : p.1 < i.sx
      · -- left strip
        refine ⟨⟨r.sx, r.sy, i.sx, r.ey⟩, ⟨Or.inl ⟨by linarith, rfl⟩, ?_⟩,
          h1, hx1, h3, h4⟩
        rw [is_valid_iff]; exact ⟨by linarith, hr.2⟩
      · push_neg at hx1
        by_cases hx2 : i.ex ≤ p.1
        · -- right strip
          refine ⟨⟨i.ex, r.sy, r.ex, r.ey⟩, ⟨Or.inr (Or.inl ⟨by linarith, rfl⟩), ?_⟩,
            hx2, h2, h3, h4⟩
          rw [is_valid_iff]; exact ⟨by linarith, hr.2⟩
        · push_neg at hx2
          by_cases hy1 : p.2 < i.sy
          · -- top middle strip
            refine ⟨⟨i.sx, r.sy, i.ex, i.sy⟩, ⟨Or.inr (Or.inr (Or.inl ⟨by linarith, rfl⟩)), ?_⟩,
              hx1, hx2, h3, hy1⟩
            rw [is_valid_iff]; exact ⟨hival.1, by linarith⟩
          · push_neg at hy1
            -- bottom middle strip; p is in the middle column and not in i,
            -- so its y must be at or past i.ey
            have hy2 : i.ey ≤ p.2 := hpi hx1 hx2 hy1
            refine ⟨⟨i.sx, i.ey, i.ex, r.ey⟩, ⟨Or.inr (Or.inr (Or.inr ⟨by linarith, rfl⟩)), ?_⟩,
              hx1, hx2, hy2, h4⟩
            rw [is_valid_iff]; exact ⟨hival.1, by linarith⟩

/-- Two boxes with separated x-ranges or separated y-ranges are disjoint. -/
lemma rect_disjoint_of_ranges {a b : Rect}
    (h : a.ex ≤ b.sx ∨ b.ex ≤ a.sx ∨ a.ey ≤ b.sy ∨ b.ey ≤ a.sy) :
    Disjoint a.toSet b.toSet := by
  rw [Set.disjoint_left]
  rintro p ⟨a1, a2, a3, a4⟩ ⟨b1, b2, b3, b4⟩
  rcases h with h | h | h | h <;> linarith

/-- The pieces produced by `subtractOne` are pairwise disjoint. -/
lemma subtractOne_pairwise {sub r : Rect} :
    (subtractOne sub r).Pairwise (fun a b => Disjoint a.toSet b.toSet) := by
  unfold subtractOne
  rcases h : r.intersection sub with _ | i
  · simp
  · obtain ⟨hieq, hival⟩ := intersection_eq_some h
    rw [is_valid_iff] at hival
    apply List.Pairwise.filter
    apply List.pairwise_append.mpr
    refine ⟨?_, by split <;> simp, ?_⟩
    · apply List.pairwise_append.mpr
      refine ⟨?_, by split <;> simp, ?_⟩
      · apply List.pairwise_append.mpr
        refine ⟨by split <;> simp, by split <;> simp, ?_⟩
        -- left vs right: x-ranges separated at i.sx ≤ i.ex
        intro a ha b hb
        rw [mem_if_singleton] at ha hb
        obtain ⟨-, hea⟩ := ha
        obtain ⟨-, heb⟩ := hb
        subst hea; subst heb
        exact rect_disjoint_of_ranges (Or.inl (le_of_lt hival.1))
      · -- (left, right) vs top-middle strip: x-ranges separated at i.sx / i.ex
        intro a ha b hb
        simp only [List.mem_append, mem_if_singleton] at ha
        rw [mem_if_singleton] at hb
        obtain ⟨-, heb⟩ := hb
        subst heb
        rcases ha with ⟨-, hea⟩ | ⟨-, hea⟩ <;> subst hea
        · exact rect_disjoint_of_ranges (Or.inl (le_refl _))
        · exact rect_disjoint_of_ranges (Or.inr (Or.inl (le_refl _)))
    · -- (left, right, top) vs bottom-middle strip
      intro a ha b hb
      simp only [List.mem_append, mem_if_singleton, or_assoc] at ha
      rw [mem_if_singleton] at hb
      obtain ⟨-, heb⟩ := hb
      subst heb
      rcases ha with ⟨-, hea⟩ | ⟨-, hea⟩ | ⟨-, hea⟩ <;> subst hea
      · exact rect_disjoint_of_ranges (Or.inl (le_refl _))
      · exact rect_disjoint_of_ranges (Or.inr (Or.inl (le_refl _)))
      · exact rect_disjoint_of_ranges (Or.inr (Or.inr (Or.inl (le_of_lt hival.2))))

@[simp] lemma unionSet_append {l₁ l₂ : List Rect} :
    unionSet (l₁ ++ l₂) = unionSet l₁ ∪ unionSet l₂ := by
  ext p
  simp only [mem_unionSet, List.mem_append, Set.mem_union]
  constructor
  · rintro ⟨r, hr | hr, hpr⟩
    · exact Or.inl ⟨r, hr, hpr⟩
    · exact Or.inr ⟨r, hr, hpr⟩
  · rintro (⟨r, hr, hpr⟩ | ⟨r, hr, hpr⟩)
    · exact ⟨r, Or.inl hr, hpr⟩
    · exact ⟨r, Or.inr hr, hpr⟩

lemma unionSet_flatMapR {f : Rect → List Rect} {l : List Rect} {s : Set (ℚ × ℚ)}
    (h : ∀ a ∈ l, unionSet (f a) = a.toSet \ s) :
    unionSet (flatMapR f l) = unionSet l \ s := by
  induction l with
  | nil => simp [flatMapR]
  | cons a l ih =>
    have ha := h a (List.mem_cons_self a l)
    have hl := ih (fun b hb => h b (List.mem_cons_of_mem a hb))
    show unionSet (f a ++ flatMapR f l) = _
    rw [unionSet_append, ha, hl, unionSet_cons, Set.union_diff_distrib]

lemma flatMapR_pairwise {f : Rect → List Rect} {l : List Rect}
    (hpw : l.Pairwise (fun a b => Disjoint a.toSet b.toSet))
    (hsub : ∀ a, ∀ q ∈ f a, q.toSet ⊆ a.toSet)
    (hf : ∀ a, (f a).Pairwise (fun a b => Disjoint a.toSet b.toSet)) :
    (flatMapR f l).Pairwise (fun a b => Disjoint a.toSet b.toSet) := by
  induction l with
  | nil => exact List.Pairwise.nil
  | cons a l ih =>
    obtain ⟨hhead, htail⟩ := List.pairwise_cons.mp hpw
    show ((f a) ++ flatMapR f l).Pairwise _
    apply List.pairwise_append.mpr
    refine ⟨hf a, ih htail, ?_⟩
    intro q hq q' hq'
    obtain ⟨b, hb, hq'b⟩ := mem_flatMapR.mp hq'
    exact Set.disjoint_of_subset (hsub a q hq) (hsub b q' hq'b) (hhead b hb)

/-- Invariant of the occluder loop of `rectangle_minus_rectangles`: starting
from a working set of valid, pairwise-disjoint rectangles, processing a list
of occluders keeps everything valid and pairwise disjoint and subtracts
exactly the union of the occluders. -/
lemma minus_fold_inv (Os : List Rect) :
    ∀ acc : List Rect, (∀ r ∈ acc, r.is_valid = true) →
      acc.Pairwise (fun a b => Disjoint a.toSet b.toSet) →
      (∀ r ∈ Os.foldl (fun result sub => flatMapR (subtractOne sub) result) acc,
          r.is_valid = true)
      ∧ (Os.foldl (fun result sub => flatMapR (subtractOne sub) result) acc).Pairwise
          (fun a b => Disjoint a.toSet b.toSet)
      ∧ unionSet (Os.foldl (fun result sub => flatMapR (subtractOne sub) result) acc)
          = unionSet acc \ unionSet Os := by
  induction Os with
  | nil =>
    intro acc hval hpw
    simpa using ⟨hval, hpw⟩
  | cons sub rest ih =>
    intro acc hval hpw
    rw [List.foldl_cons]
    have hval' : ∀ r ∈ flatMapR (subtractOne sub) acc, r.is_valid = true := by
      intro r hr
      obtain ⟨a, ha, hra⟩ := mem_flatMapR.mp hr
      exact subtractOne_valid (hval a ha) hra
    have hpw' : (flatMapR (subtractOne sub) acc).Pairwise
        (fun a b => Disjoint a.toSet b.toSet) :=
      flatMapR_pairwise hpw
        (fun a q hq => (subtractOne_subset hq).trans (Set.diff_subset))
        (fun a => subtractOne_pairwise)
    have hu' : unionSet (flatMapR (subtractOne sub) acc) = unionSet acc \ sub.toSet :=
      unionSet_flatMapR (fun a ha => subtractOne_unionSet (hval a ha))
    obtain ⟨h1, h2, h3⟩ := ih (flatMapR (subtractOne sub) acc) hval' hpw'
    refine ⟨h1, h2, ?_⟩
    rw [h3, hu', Set.diff_diff, unionSet_cons]

/-- **C1.** For every valid view rectangle `V` and list of valid occluder
rectangles `Os`, `rectangle_minus_rectangles V Os` returns rectangles that
are all valid, pairwise disjoint, disjoint from every occluder, and whose
union is exactly `V` minus the union of the occluders. -/
theorem c1_rectangle_minus_rectangles_correct (V : Rect) (Os : List Rect)
    (hV : V.is_valid = true) (hOs : ∀ O ∈ Os, O.is_valid = true) :
    (∀ R ∈ rectangle_minus_rectangles V Os, R.is_valid = true)
    ∧ (rectangle_minus_rectangles V Os).Pairwise (fun a b => Disjoint a.toSet b.toSet)
    ∧ (∀ R ∈ rectangle_minus_rectangles V Os, ∀ O ∈ Os, Disjoint R.toSet O.toSet)
    ∧ unionSet (rectangle_minus_rectangles V Os) = V.toSet \ unionSet Os := by
  have hstart : ∀ r ∈ [V], r.is_valid = true := by
    intro r hr; rw [List.mem_singleton] at hr; exact hr ▸ hV
  obtain ⟨h1, h2, h3⟩ := minus_fold_inv Os [V] hstart (by simp)
  have hu : unionSet (rectangle_minus_rectangles V Os) = V.toSet \ unionSet Os := by
    rw [rectangle_minus_rectangles, h3, unionSet_cons, unionSet_nil, Set.union_empty]
  refine ⟨h1, h2, ?_, hu⟩
  intro R hR O hO
  rw [Set.disjoint_left]
  intro p hpR hpO
  have hpu : p ∈ unionSet (rectangle_minus_rectangles V Os) := ⟨R, hR, hpR⟩
  rw [hu] at hpu
  exact hpu.2 ⟨O, hO, hpO⟩

/-- Witness for C1 at `V = (0,0)–(10,10)`, occluders `(4,4)–(6,6)` and
`(20,20)–(25,25)`. -/
theorem c1_witness :
    (∀ R ∈ rectangle_minus_rectangles ⟨0, 0, 10, 10⟩ [⟨4, 4, 6, 6⟩, ⟨20, 20, 25, 25⟩],
        R.is_valid = true)
    ∧ (rectangle_minus_rectangles ⟨0, 0, 10, 10⟩ [⟨4, 4, 6, 6⟩, ⟨20, 20, 25, 25⟩]).Pairwise
        (fun a b => Disjoint a.toSet b.toSet)
    ∧ (∀ R ∈ rectangle_minus_rectangles ⟨0, 0, 10, 10⟩ [⟨4, 4, 6, 6⟩, ⟨20, 20, 25, 25⟩],
        ∀ O ∈ ([⟨4, 4, 6, 6⟩, ⟨20, 20, 25, 25⟩] : List Rect), Disjoint R.toSet O.toSet)
    ∧ unionSet (rectangle_minus_rectangles ⟨0, 0, 10, 10⟩ [⟨4, 4, 6, 6⟩, ⟨20, 20, 25, 25⟩])
        = Rect.toSet ⟨0, 0, 10, 10⟩ \ unionSet [⟨4, 4, 6, 6⟩, ⟨20, 20, 25, 25⟩] :=
  c1_rectangle_minus_rectangles_correct ⟨0, 0, 10, 10⟩ [⟨4, 4, 6, 6⟩, ⟨20, 20, 25, 25⟩]
    (by decide) (by decide)

/-- **C6.** For valid rectangles, `intersection` is `none` exactly when
`intersects` is `false`, and whenever the strict overlap test holds the
max-of-starts/min-of-ends rectangle is valid and returned as `some`. -/
theorem c6_intersection_none_iff_not_intersects (a b : Rect)
    (ha : a.is_valid = true) (hb : b.is_valid = true) :
    (a.intersection b = none ↔ a.intersects b = false)
    ∧ (a.intersects b = true →
        (Rect.mk (max a.sx b.sx) (max a.sy b.sy) (min a.ex b.ex) (min a.ey b.ey)).is_valid
            = true
        ∧ a.intersection b
            = some (Rect.mk (max a.sx b.sx) (max a.sy b.sy) (min a.ex b.ex) (min a.ey b.ey))) := by
  rw [is_valid_iff] at ha hb
  have hsome : a.intersects b = true →
      (Rect.mk (max a.sx b.sx) (max a.sy b.sy) (min a.ex b.ex) (min a.ey b.ey)).is_valid = true
      ∧ a.intersection b
          = some (Rect.mk (max a.sx b.sx) (max a.sy b.sy) (min a.ex b.ex) (min a.ey b.ey)) := by
    intro hi
    obtain ⟨h1, h2, h3, h4⟩ := intersects_iff.mp hi
    have hv : (Rect.mk (max a.sx b.sx) (max a.sy b.sy) (min a.ex b.ex)
        (min a.ey b.ey)).is_valid = true := by
      rw [is_valid_iff]
      exact ⟨max_lt (lt_min ha.1 h1) (lt_min h2 hb.1),
             max_lt (lt_min ha.2 h3) (lt_min h4 hb.2)⟩
    refine ⟨hv, ?_⟩
    unfold Rect.intersection
    simp [hi, hv]
  refine ⟨⟨?_, ?_⟩, hsome⟩
  · intro hnone
    by_cases hi : a.intersects b = true
    · rw [(hsome hi).2] at hnone
      exact Option.noConfusion hnone
    · simpa using hi
  · intro hfalse
    unfold Rect.intersection
    simp [hfalse]

/-- Witness for C6 at `a = (0,0)–(2,2)`, `b = (1,1)–(3,3)`. -/
theorem c6_witness :
    ((Rect.intersection ⟨0, 0, 2, 2⟩ ⟨1, 1, 3, 3⟩ = none
        ↔ Rect.intersects ⟨0, 0, 2, 2⟩ ⟨1, 1, 3, 3⟩ = false)
    ∧ (Rect.intersects ⟨0, 0, 2, 2⟩ ⟨1, 1, 3, 3⟩ = true →
        (Rect.mk (max 0 1) (max 0 1) (min 2 3) (min 2 3)).is_valid = true
        ∧ Rect.intersection ⟨0, 0, 2, 2⟩ ⟨1, 1, 3, 3⟩
            = some (Rect.mk (max 0 1) (max 0 1) (min 2 3) (min 2 3)))) :=
  c6_intersection_none_iff_not_intersects ⟨0, 0, 2, 2⟩ ⟨1, 1, 3, 3⟩ (by decide) (by decide)

/-- **C7 counterexample.** An invalid (degenerate) view rectangle with no
occluders is returned unchanged, so the output can contain an invalid
rectangle: the claim fails for degenerate input views. -/
theorem c7_counterexample :
    ¬ (∀ R ∈ rectangle_minus_rectangles ⟨0, 0, 0, 0⟩ [], R.is_valid = true) := by
  intro h
  have hmem := h ⟨0, 0, 0, 0⟩ (by rw [rectangle_minus_rectangles]; simp)
  rw [is_valid_iff] at hmem
  exact absurd hmem.1 (lt_irrefl 0)

/-- **C7 (amended).** If the input view rectangle is valid then — for every
occluder list, including degenerate occluders — every rectangle returned by
`rectangle_minus_rectangles` is valid: degenerate split pieces are dropped
by the validity filter and degenerate occluders subtract nothing. -/
theorem c7_output_valid (V : Rect) (Os : List Rect) (hV : V.is_valid = true) :
    ∀ R ∈ rectangle_minus_rectangles V Os, R.is_valid = true := by
  have hstart : ∀ r ∈ [V], r.is_valid = true := by
    intro r hr; rw [List.mem_singleton] at hr; exact hr ▸ hV
  exact (minus_fold_inv Os [V] hstart (by simp)).1

/-- Witness for C7 (amended) at a valid view and a degenerate occluder. -/
theorem c7_witness :
    (rectangle_minus_rectangles ⟨0, 0, 2, 2⟩ [⟨1, 1, 1, 5⟩]).all
        (fun R => R.is_valid) = true :=
  List.all_eq_true.mpr
    (fun R hR => c7_output_valid ⟨0, 0, 2, 2⟩ [⟨1, 1, 1, 5⟩] (by decide) R hR)

/-!
## Slopes and the recursive caster (`cast_light`)

Slope bounds may be `f32::INFINITY` (the four seed rectangles of
`set_origin_and_recompute`), so slopes get their own type.  A slope produced
by `new_slope_rect` whose denominator `rect.coord − origin` is zero is `±∞`
in the source; it is modelled as `fin 0` here (rational division by zero
gives `0`).  Every later use of such a slope behaves identically under the
two conventions: dividing the non-zero numerator `z ± 0.5` by it gives `0`
either way (`x/±∞ = ±0` in IEEE), and the growth guards in
`get_cube_occlusion` skip it either way (`±∞` fails `is_finite`, `0` fails
the strict sign test).  A finite non-zero slope is never `0` in the source
because the numerators `z ± 0.5` are never zero.
-/

/-- A slope bound: a finite rational or a signed infinity. -/
inductive Slope where
  | fin (q : ℚ)
  | inf (pos : Bool)
deriving DecidableEq, Repr

/-- SlopeRect: the `Rect` used in slope space; its bounds may be infinite. -/
structure SlopeRect where
  sx : Slope
  sy : Slope
  ex : Slope
  ey : Slope
deriving DecidableEq, Repr

/-- Division of a finite numerator by a slope bound (sees `±∞` as in IEEE). -/
def Slope.div (q : ℚ) : Slope → ℚ
  | .fin s => q / s
  | .inf _ => 0

/-- The guard `slope > 0.0 && slope.is_finite()` of `get_cube_occlusion`. -/
def Slope.posFinite : Slope → Bool
  | .fin s => decide (0 < s)
  | .inf _ => false

/-- The guard `slope < 0.0 && slope.is_finite()` of `get_cube_occlusion`. -/
def Slope.negFinite : Slope → Bool
  | .fin s => decide (s < 0)
  | .inf _ => false

/-- `MAX_DEPTH` from display.rs. -/
def MAX_DEPTH : ℕ := 15

/-- The view rectangle computed at the top of `cast_light`: the signed layer
coordinate is `z = ±depth`, the half-offset is `±0.5`, each bound is
`(z_f32 + z_half_offset) / slope + origin`, and the roles of starts and ends
are swapped when `reverse_z`. -/
def viewRect (slope_rect : SlopeRect) (depth : ℕ) (reverse_z : Bool)
    (ox oy : ℚ) : Rect :=
  let z : ℤ := if reverse_z then -(depth : ℤ) else (depth : ℤ)
  let z_half_offset : ℚ := if reverse_z then 1/2 else -(1/2)
  let num : ℚ := (z : ℚ) + z_half_offset
  if reverse_z then
    { ex := Slope.div num slope_rect.sx + ox
      ey := Slope.div num slope_rect.sy + oy
      sx := Slope.div num slope_rect.ex + ox
      sy := Slope.div num slope_rect.ey + oy }
  else
    { sx := Slope.div num slope_rect.sx + ox
      sy := Slope.div num slope_rect.sy + oy
      ex := Slope.div num slope_rect.ex + ox
      ey := Slope.div num slope_rect.ey + oy }

/-- The LayerRect formula exactly as claim C2 states it: each bound is
`(d + half)` divided by the corresponding slope bound plus the origin
coordinate, with the *unsigned* depth `d`, `half = +0.5` when `reverse_z`
and `-0.5` otherwise, and roles of `sx`/`ex`, `sy`/`ey` swapped when
`reverse_z`. -/
def viewRectClaim (S : SlopeRect) (d : ℕ) (reverse_z : Bool) (ox oy : ℚ) : Rect :=
  let half : ℚ := if reverse_z then 1/2 else -(1/2)
  let num : ℚ := (d : ℚ) + half
  let vsx := Slope.div num S.sx + ox
  let vsy := Slope.div num S.sy + oy
  let vex := Slope.div num S.ex + ox
  let vey := Slope.div num S.ey + oy
  if reverse_z then { sx := vex, sy := vey, ex := vsx, ey := vsy }
  else { sx := vsx, sy := vsy, ex := vex, ey := vey }

/-- The spec formula amended as the code forces: the numerator is `z + half`
where `z` is the *signed* depth coordinate (`-d` when `reverse_z`, `d`
otherwise), not the unsigned distance `d`. -/
def viewRectAmended (S : SlopeRect) (d : ℕ) (reverse_z : Bool) (ox oy : ℚ) : Rect :=
  let half : ℚ := if reverse_z then 1/2 else -(1/2)
  let z : ℚ := if reverse_z then -(d : ℚ) else (d : ℚ)
  let vsx := Slope.div (z + half) S.sx + ox
  let vsy := Slope.div (z + half) S.sy + oy
  let vex := Slope.div (z + half) S.ex + ox
  let vey := Slope.div (z + half) S.ey + oy
  if reverse_z then { sx := vex, sy := vey, ex := vsx, ey := vsy }
  else { sx := vsx, sy := vsy, ex := vex, ey := vey }

/-- **C2 counterexample.** At `reverse_z = true`, depth `1`, finite slopes
`(1,1,2,2)` and origin `(0,0)`, the code's numerator is `-1 + 0.5 = -0.5`
while the claimed formula's is `1 + 0.5 = 1.5`: the computed view rectangle
differs from the claimed one. -/
theorem c2_counterexample :
    viewRect ⟨.fin 1, .fin 1, .fin 2, .fin 2⟩ 1 true 0 0
      ≠ viewRectClaim ⟨.fin 1, .fin 1, .fin 2, .fin 2⟩ 1 true 0 0 := by
  with_unfolding_all decide

/-- **C2 (amended).** For every SlopeRect, depth and direction, the view
rectangle the caster computes equals the spec formula with the numerator
taken as `z + half` for the signed depth coordinate `z` (`-d` under
`reverse_z`, `d` otherwise), `half = ±0.5`, and starts/ends swapped under
`reverse_z`. -/
theorem c2_view_rect_formula (S : SlopeRect) (d : ℕ) (rz : Bool) (ox oy : ℚ) :
    viewRect S d rz ox oy = viewRectAmended S d rz ox oy := by
  cases rz <;> simp [viewRect, viewRectAmended]

/-- `get_cube_occlusion` from display.rs: the unit-square footprint of an
occluded voxel, grown toward the far side on each axis whose slope bound is
finite and on the permissive side. -/
def get_cube_occlusion (x y z : ℚ) (originx originy : ℚ)
    (slope_rect : SlopeRect) (reverse_z : Bool) : Rect :=
  let z_half_offset : ℚ := if reverse_z then 1/2 else -(1/2)
  let base_occluded : Rect := ⟨x - 1/2, y - 1/2, x + 1/2, y + 1/2⟩
  let esx : ℚ := if slope_rect.ex.posFinite
    then (x + z_half_offset - originx) / (z - z_half_offset) else 0
  let esy : ℚ := if slope_rect.ey.posFinite
    then (y + z_half_offset - originy) / (z - z_half_offset) else 0
  let eex : ℚ := if slope_rect.sx.negFinite
    then (x - z_half_offset - originx) / (z - z_half_offset) else 0
  let eey : ℚ := if slope_rect.sy.negFinite
    then (y - z_half_offset - originy) / (z - z_half_offset) else 0
  let extra : Rect := ⟨esx, esy, eex, eey⟩
  if reverse_z then base_occluded.add extra.swap_start_and_end
  else base_occluded.sub extra

/-- The slope rectangle for the next depth: `(z_f32 + z_half_offset)`
divided by the unblocked rectangle's bounds re-centered at the origin,
starts/ends swapped under `reverse_z`.  A zero denominator is the source's
`±∞` slope, modelled as `fin 0` (see the section comment). -/
def newSlopeRect (rect : Rect) (num : ℚ) (reverse_z : Bool)
    (ox oy : ℚ) : SlopeRect :=
  if reverse_z then
    { ex := .fin (num / (rect.sx - ox))
      ey := .fin (num / (rect.sy - oy))
      sx := .fin (num / (rect.ex - ox))
      sy := .fin (num / (rect.ey - oy)) }
  else
    { sx := .fin (num / (rect.sx - ox))
      sy := .fin (num / (rect.sy - oy))
      ex := .fin (num / (rect.ex - ox))
      ey := .fin (num / (rect.ey - oy)) }

/-- A voxel index triple after the source's `as usize` casts. -/
abbrev Cell := ℕ × ℕ × ℕ

/-- Contents of the `occluded: Array3<bool>` (shape 100×100×100), as a total
function; only indices below the bounds are meaningful. -/
abbrev Volume := Cell → Bool

/-- The fixed shape of the occlusion volume. -/
def VOL : ℕ := 100

/-- `usize::MAX + 1`. -/
def USIZE : ℕ := 2 ^ 64

/-- Rust `as usize` on an integer of `i32`/`i64` range: reduce mod `2^64`.
A negative coordinate becomes a huge index, which then fails every bounds
check. -/
def castUsize (x : ℤ) : ℕ := (x % (USIZE : ℤ)).toNat

/-- `self.occluded.get(index).is_some_and(|occluded| *occluded)`: a total
lookup that reads out-of-bounds indices as "not occluded". -/
def occLookup (vol : Volume) (c : Cell) : Bool :=
  decide (c.1 < VOL) && decide (c.2.1 < VOL) && decide (c.2.2 < VOL) && vol c

/-- `Display::set_occluded`: cast the `Vector3i` coordinates to `usize`;
when in bounds, set the cell; otherwise report an error
(`godot_script_error`) and leave the volume unchanged.  The returned `Bool`
is `true` exactly when the error branch ran. -/
def set_occluded (vol : Volume) (pos : ℤ × ℤ × ℤ) : Volume × Bool :=
  if castUsize pos.1 < VOL ∧ castUsize pos.2.1 < VOL ∧ castUsize pos.2.2 < VOL then
    (fun c => if c = (castUsize pos.1, castUsize pos.2.1, castUsize pos.2.2)
        then true else vol c,
     false)
  else
    (vol, true)

/-- The three scan planes of the caster. -/
inductive UnitPlane3d where
  | XY
  | ZY
  | ZX
deriving DecidableEq, Repr

/-- The origin permutation at the top of `cast_light`. -/
def permuteOrigin (o : ℤ × ℤ × ℤ) : UnitPlane3d → ℤ × ℤ × ℤ
  | .XY => o
  | .ZY => (o.2.2, o.2.1, o.1)
  | .ZX => (o.2.2, o.1, o.2.1)

/-- The `(x_check, y_check, z_check)` volume index scanned for loop cell
`(x, y)` at signed layer coordinate `z`, where `oz` is the permuted
origin's `z`. -/
def checkCell (plane : UnitPlane3d) (x y : ℕ) (z oz : ℤ) : Cell :=
  match plane with
  | .XY => (x, y, castUsize (z + oz))
  | .ZY => (castUsize (z + oz), y, x)
  | .ZX => (y, castUsize (z + oz), x)

/-- `q.floor() as usize` (saturating at `0` for negative values). -/
def natFloor (q : ℚ) : ℕ := (⌊q⌋).toNat

/-- `q.ceil() as usize` (saturating at `0` for negative values). -/
def natCeil (q : ℚ) : ℕ := (⌈q⌉).toNat

/-- `s..e` as a list. -/
def natRange (s e : ℕ) : List ℕ := (List.range (e - s)).map (fun i => s + i)

/-- The nested `for x in s_ix..e_ix { for y in s_iy..e_iy { … } }` loop order. -/
def gridCells (sx ex sy ey : ℕ) : List (ℕ × ℕ) :=
  (natRange sx ex).foldr
    (fun x acc => ((natRange sy ey).map (fun y => (x, y))) ++ acc) []

/-- Observable output of one `cast_light` invocation: the volume indices
scanned by the innermost loop, and the `depth` argument of every recursive
invocation made (in call order). -/
structure CastOut where
  visits : List Cell
  calls : List ℕ
deriving DecidableEq, Repr

/-- The body of `cast_light` below the `depth > MAX_DEPTH` guard, with the
recursive call abstracted as `recur`.  Debug drawing (the visualization
sink) has no effect on the volume, the scan or the recursion and is not
modelled. -/
def castStep (vol : Volume) (displayOrigin : ℤ × ℤ × ℤ) (slope_rect : SlopeRect)
    (depth : ℕ) (reverse_z : Bool) (plane : UnitPlane3d)
    (recur : SlopeRect → CastOut) : CastOut :=
  let origin := permuteOrigin displayOrigin plane
  let ox : ℚ := (origin.1 : ℚ)
  let oy : ℚ := (origin.2.1 : ℚ)
  let z : ℤ := if reverse_z then -(depth : ℤ) else (depth : ℤ)
  let z_half_offset : ℚ := if reverse_z then 1/2 else -(1/2)
  let num : ℚ := (z : ℚ) + z_half_offset
  let view_rect := viewRect slope_rect depth reverse_z ox oy
  let s_ix0 := natFloor view_rect.sx
  let s_ix := if 0 < s_ix0 then s_ix0 - 1 else s_ix0
  let s_iy0 := natFloor view_rect.sy
  let s_iy := if 0 < s_iy0 then s_iy0 - 1 else s_iy0
  let e_ix := natCeil view_rect.ex + 1
  let e_iy := natCeil view_rect.ey + 1
  let cells := gridCells s_ix e_ix s_iy e_iy
  let visits := cells.map (fun c => checkCell plane c.1 c.2 z origin.2.2)
  let occluding_rectangles :=
    (cells.filter (fun c => occLookup vol (checkCell plane c.1 c.2 z origin.2.2))).map
      (fun c => get_cube_occlusion (c.1 : ℚ) (c.2 : ℚ) ((z : ℚ)) ox oy
        slope_rect reverse_z)
  let unblocked := rectangle_minus_rectangles view_rect occluding_rectangles
  let childOuts := unblocked.map
    (fun rect => recur (newSlopeRect rect num reverse_z ox oy))
  { visits := visits ++ childOuts.foldr (fun c acc => c.visits ++ acc) []
    calls := childOuts.foldr (fun c acc => (depth + 1) :: (c.calls ++ acc)) [] }

/-- `cast_light`, with an explicit recursion budget `fuel` standing for the
call stack: the source needs none because each self-call increases `depth`
and the `depth > MAX_DEPTH` guard stops the recursion;
`c4_cast_light_terminates` shows any `fuel ≥ MAX_DEPTH + 1 - depth` gives
the same result, so the budget is immaterial. -/
def cast_light (fuel : ℕ) (vol : Volume) (displayOrigin : ℤ × ℤ × ℤ)
    (slope_rect : SlopeRect) (depth : ℕ) (reverse_z : Bool)
    (plane : UnitPlane3d) : CastOut :=
  if MAX_DEPTH < depth then ⟨[], []⟩
  else match fuel with
  | 0 => ⟨[], []⟩
  | f + 1 => castStep vol displayOrigin slope_rect depth reverse_z plane
      (fun sr => cast_light f vol displayOrigin sr (depth + 1) reverse_z plane)

/-- The four seed slope rectangles of `set_origin_and_recompute`. -/
def initial_slope_rects : List SlopeRect :=
  [ ⟨.inf true, .inf true, .fin 1, .fin 1⟩,
    ⟨.fin (-1), .inf true, .inf true, .fin 1⟩,
    ⟨.inf true, .fin (-1), .fin 1, .inf true⟩,
    ⟨.fin (-1), .fin (-1), .inf true, .inf true⟩ ]

/-- The 24 sectors in driver order: 4 seed slope rects × 2 depth
directions × 3 planes. -/
def sectorList : List (SlopeRect × Bool × UnitPlane3d) :=
  initial_slope_rects.foldr (fun s acc =>
    [false, true].foldr (fun rz acc2 =>
      [UnitPlane3d.XY, UnitPlane3d.ZX, UnitPlane3d.ZY].foldr (fun plane acc3 =>
        (s, rz, plane) :: acc3) acc2) acc) []

/-- One sector's cast, launched by the driver at depth 1.  Budget
`MAX_DEPTH` recursion steps, which suffices from depth 1 by
`c4_cast_light_terminates`. -/
def passOne (vol : Volume) (displayOrigin : ℤ × ℤ × ℤ)
    (sec : SlopeRect × Bool × UnitPlane3d) : CastOut :=
  cast_light MAX_DEPTH vol displayOrigin sec.1 1 sec.2.1 sec.2.2

/-- The driver loop over a list of sectors.  Each sector is cast twice (the
profiling run and the visualization run — the two calls differ only in the
unmodelled `draw_debug` flag, so they produce the same output). -/
def passFold (vol : Volume) (displayOrigin : ℤ × ℤ × ℤ) :
    List (SlopeRect × Bool × UnitPlane3d) → CastOut
  | [] => ⟨[], []⟩
  | sec :: rest =>
    let a := passOne vol displayOrigin sec
    let acc := passFold vol displayOrigin rest
    ⟨a.visits ++ (a.visits ++ acc.visits), a.calls ++ (a.calls ++ acc.calls)⟩

/-- One full visibility pass of `set_origin_and_recompute`: all 24 sectors
from depth 1. -/
def fullPass (vol : Volume) (displayOrigin : ℤ × ℤ × ℤ) : CastOut :=
  passFold vol displayOrigin sectorList

/-- Truncation toward zero: Rust's `Vector3::cast_int`. -/
def qtrunc (q : ℚ) : ℤ := q.num / (q.den : ℤ)

/-- The state of `Display` relevant to the core: the occlusion volume and
the integer origin. -/
structure DisplayState where
  occluded : Volume
  origin : ℤ × ℤ × ℤ

/-- `Display::set_origin_and_recompute`: truncate the float origin, store
it, and run the full pass (which only reads the volume). -/
def set_origin_and_recompute (s : DisplayState) (o : ℚ × ℚ × ℚ) :
    DisplayState × CastOut :=
  let newOrigin : ℤ × ℤ × ℤ := (qtrunc o.1, qtrunc o.2.1, qtrunc o.2.2)
  ({ occluded := s.occluded, origin := newOrigin },
   fullPass s.occluded newOrigin)

/-!
## Termination and the depth bound (C4, C5)
-/

/-- A call with `depth > MAX_DEPTH` returns immediately, whatever the budget. -/
lemma cast_light_of_gt {fuel : ℕ} {vol : Volume} {o : ℤ × ℤ × ℤ} {s : SlopeRect}
    {depth : ℕ} {rz : Bool} {plane : UnitPlane3d} (h : MAX_DEPTH < depth) :
    cast_light fuel vol o s depth rz plane = ⟨[], []⟩ := by
  cases fuel <;> simp [cast_light, h]

lemma cast_light_zero {vol : Volume} {o : ℤ × ℤ × ℤ} {s : SlopeRect}
    {depth : ℕ} {rz : Bool} {plane : UnitPlane3d} :
    cast_light 0 vol o s depth rz plane = ⟨[], []⟩ := by
  unfold cast_light
  split <;> rfl

lemma cast_light_succ {f : ℕ} {vol : Volume} {o : ℤ × ℤ × ℤ} {s : SlopeRect}
    {depth : ℕ} {rz : Bool} {plane : UnitPlane3d} (hd : ¬ MAX_DEPTH < depth) :
    cast_light (f + 1) vol o s depth rz plane
      = castStep vol o s depth rz plane
          (fun sr => cast_light f vol o sr (depth + 1) rz plane) := by
  conv_lhs => rw [cast_light]
  rw [if_neg hd]

/-- Any two budgets of at least `MAX_DEPTH + 1 - depth` steps give the same
result: the recursion always hits the depth guard before the budget. -/
lemma cast_light_fuel_mono :
    ∀ (n f g : ℕ) (vol : Volume) (o : ℤ × ℤ × ℤ) (s : SlopeRect) (depth : ℕ)
      (rz : Bool) (plane : UnitPlane3d),
      MAX_DEPTH + 1 - depth ≤ n → n ≤ f → n ≤ g →
      cast_light f vol o s depth rz plane = cast_light g vol o s depth rz plane := by
  intro n
  induction n with
  | zero =>
    intro f g vol o s depth rz plane hn hf hg
    have hd : MAX_DEPTH < depth := by omega
    rw [cast_light_of_gt hd, cast_light_of_gt hd]
  | succ n ih =>
    intro f g vol o s depth rz plane hn hf hg
    by_cases hd : MAX_DEPTH < depth
    · rw [cast_light_of_gt hd, cast_light_of_gt hd]
    · obtain ⟨f', rfl⟩ : ∃ k, f = k + 1 := ⟨f - 1, by omega⟩
      obtain ⟨g', rfl⟩ : ∃ k, g = k + 1 := ⟨g - 1, by omega⟩
      rw [cast_light_succ hd, cast_light_succ hd]
      apply congrArg
      funext sr
      exact ih f' g' vol o sr (depth + 1) rz plane (by omega) (by omega) (by omega)

/-- **C4.** `cast_light` terminates on every input: every call with
`depth > MAX_DEPTH` returns immediately without recursing, each self-call
increases `depth` by exactly 1, and from any starting depth a finite budget
of `MAX_DEPTH + 1 - depth` recursion steps fully computes the cast — any
larger budget gives the same result, so the driver's casts from depth 1
perform finitely much work. -/
theorem c4_cast_light_terminates :
    (∀ (fuel : ℕ) (vol : Volume) (o : ℤ × ℤ × ℤ) (s : SlopeRect) (depth : ℕ)
        (rz : Bool) (plane : UnitPlane3d), MAX_DEPTH + 1 - depth ≤ fuel →
        cast_light fuel vol o s depth rz plane
          = cast_light (MAX_DEPTH + 1 - depth) vol o s depth rz plane)
    ∧ (∀ (fuel : ℕ) (vol : Volume) (o : ℤ × ℤ × ℤ) (s : SlopeRect) (depth : ℕ)
        (rz : Bool) (plane : UnitPlane3d), MAX_DEPTH < depth →
        cast_light fuel vol o s depth rz plane = ⟨[], []⟩) := by
  constructor
  · intro fuel vol o s depth rz plane h
    exact cast_light_fuel_mono (MAX_DEPTH + 1 - depth) fuel (MAX_DEPTH + 1 - depth)
      vol o s depth rz plane (le_refl _) h (le_refl _)
  · intro fuel vol o s depth rz plane h
    exact cast_light_of_gt h

/-- Witness for C4 at a call past the depth bound. -/
theorem c4_witness :
    cast_light 17 (fun _ => false) (0, 0, 0) ⟨.fin 1, .fin 1, .fin 2, .fin 2⟩ 16 false .XY
        = cast_light (MAX_DEPTH + 1 - 16) (fun _ => false) (0, 0, 0)
            ⟨.fin 1, .fin 1, .fin 2, .fin 2⟩ 16 false .XY
    ∧ cast_light 17 (fun _ => false) (0, 0, 0) ⟨.fin 1, .fin 1, .fin 2, .fin 2⟩ 16 false .XY
        = ⟨[], []⟩ :=
  ⟨c4_cast_light_terminates.1 17 (fun _ => false) (0, 0, 0)
      ⟨.fin 1, .fin 1, .fin 2, .fin 2⟩ 16 false .XY (by decide),
   c4_cast_light_terminates.2 17 (fun _ => false) (0, 0, 0)
      ⟨.fin 1, .fin 1, .fin 2, .fin 2⟩ 16 false .XY (by decide)⟩

lemma mem_callsFold {l : List CastOut} {k d : ℕ}
    (h : d ∈ l.foldr (fun c acc => k :: (c.calls ++ acc)) []) :
    d = k ∨ ∃ c ∈ l, d ∈ c.calls := by
  induction l with
  | nil => simp at h
  | cons a l ih =>
    simp only [List.foldr_cons, List.mem_cons, List.mem_append] at h
    rcases h with h | h | h
    · exact Or.inl h
    · exact Or.inr ⟨a, List.mem_cons_self a l, h⟩
    · rcases ih h with h | ⟨c, hc, hdc⟩
      · exact Or.inl h
      · exact Or.inr ⟨c, List.mem_cons_of_mem a hc, hdc⟩

/-- Every recursive invocation recorded by a cast has depth ≤ `MAX_DEPTH + 1`. -/
lemma cast_light_calls_le :
    ∀ (fuel : ℕ) (vol : Volume) (o : ℤ × ℤ × ℤ) (s : SlopeRect) (depth : ℕ)
      (rz : Bool) (plane : UnitPlane3d) (d : ℕ),
      d ∈ (cast_light fuel vol o s depth rz plane).calls → d ≤ MAX_DEPTH + 1 := by
  intro fuel
  induction fuel with
  | zero =>
    intro vol o s depth rz plane d hd
    rw [cast_light_zero] at hd
    simp at hd
  | succ f ih =>
    intro vol o s depth rz plane d hd
    by_cases h : MAX_DEPTH < depth
    · rw [cast_light_of_gt h] at hd
      simp at hd
    · rw [cast_light_succ h] at hd
      simp only [castStep] at hd
      rcases mem_callsFold hd with rfl | ⟨c, hc, hdc⟩
      · omega
      · obtain ⟨rect, _, rfl⟩ := List.mem_map.mp hc
        exact ih vol o _ (depth + 1) rz plane d hdc

lemma passFold_calls_mem {vol : Volume} {o : ℤ × ℤ × ℤ} :
    ∀ (l : List (SlopeRect × Bool × UnitPlane3d)) (d : ℕ),
      d ∈ (passFold vol o l).calls → ∃ sec ∈ l, d ∈ (passOne vol o sec).calls := by
  intro l
  induction l with
  | nil => intro d hd; simp [passFold] at hd
  | cons sec l ih =>
    intro d hd
    simp only [passFold, List.mem_append] at hd
    rcases hd with hd | hd | hd
    · exact ⟨sec, List.mem_cons_self sec l, hd⟩
    · exact ⟨sec, List.mem_cons_self sec l, hd⟩
    · obtain ⟨c, hc, hdc⟩ := ih d hd
      exact ⟨c, List.mem_cons_of_mem sec hc, hdc⟩

/-- **C5 counterexample.** With an empty volume and origin `(50,50,50)`, the
pass makes a recursive invocation with depth argument
`16 = MAX_DEPTH + 1 > MAX_DEPTH`: the call at depth `MAX_DEPTH` passes the
guard and still recurses, so the claimed bound `MAX_DEPTH` is violated. -/
theorem c5_counterexample :
    16 ∈ (fullPass (fun _ => false) (50, 50, 50)).calls ∧ MAX_DEPTH < 16 :=
  ⟨by with_unfolding_all decide, by decide⟩

/-- **C5 (amended).** Starting from any driver invocation at depth 1, every
recursive cast is invoked with depth at most `MAX_DEPTH + 1`; the calls at
depth `MAX_DEPTH + 1` return immediately at the guard. -/
theorem c5_calls_bounded (vol : Volume) (o : ℤ × ℤ × ℤ) :
    ∀ d ∈ (fullPass vol o).calls, d ≤ MAX_DEPTH + 1 := by
  intro d hd
  obtain ⟨sec, _, hdc⟩ := passFold_calls_mem sectorList d hd
  exact cast_light_calls_le MAX_DEPTH vol o sec.1 1 sec.2.1 sec.2.2 d hdc

/-- Witness for C5 (amended): a depth-2 invocation recorded by a pass over a
volume occluded everywhere except one cell. -/
theorem c5_witness :
    2 ∈ (fullPass (fun c => decide (c ≠ (50, 50, 51))) (50, 50, 50)).calls
    ∧ 2 ≤ MAX_DEPTH + 1 :=
  ⟨by with_unfolding_all decide,
   c5_calls_bounded (fun c => decide (c ≠ (50, 50, 51))) (50, 50, 50) 2
     (by with_unfolding_all decide)⟩

/-!
## The visibility sink (C3)

Modelled from the spec: the source never invokes a visibility sink — the
innermost scan loop carries only the comment "here's where you would put
your logic for showing/hiding the object at (x,y,depth)".  Spec §4.4
requires every scanned, unoccluded cell to be reported visible exactly once
over the whole pass, deduplicated through an "already reported" marker
checked before invoking the sink; `reportVisible` below is that sink.
-/

/-- Modelled from the spec: report each scanned cell that is not occluded,
skipping cells already in the `seen` marker set, and marking each reported
cell. -/
def reportVisible (occ : Cell → Bool) : List Cell → List Cell → List Cell
  | [], _ => []
  | c :: rest, seen =>
    if occ c = false ∧ c ∉ seen then c :: reportVisible occ rest (c :: seen)
    else reportVisible occ rest seen

/-- Modelled from the spec: the deduplicated visibility report of one full
24-sector pass. -/
def visibilityReport (vol : Volume) (o : ℤ × ℤ × ℤ) : List Cell :=
  reportVisible (occLookup vol) (fullPass vol o).visits []

lemma mem_reportVisible (occ : Cell → Bool) :
    ∀ (visits seen : List Cell) (c : Cell),
      c ∈ reportVisible occ visits seen
        ↔ c ∈ visits ∧ occ c = false ∧ c ∉ seen := by
  intro visits
  induction visits with
  | nil => intro seen c; simp [reportVisible]
  | cons a rest ih =>
    intro seen c
    by_cases h : occ a = false ∧ a ∉ seen
    · simp only [reportVisible, if_pos h]
      rw [List.mem_cons, ih (a :: seen) c]
      constructor
      · rintro (hca | ⟨h1, h2, h3⟩)
        · cases hca
          exact ⟨List.mem_cons_self _ _, h.1, h.2⟩
        · exact ⟨List.mem_cons_of_mem a h1, h2,
            fun hc => h3 (List.mem_cons_of_mem a hc)⟩
      · rintro ⟨hmem, h2, h3⟩
        by_cases hca : c = a
        · exact Or.inl hca
        · refine Or.inr ⟨(List.mem_cons.mp hmem).resolve_left hca, h2, ?_⟩
          intro hc
          rcases List.mem_cons.mp hc with hc | hc
          · exact hca hc
          · exact h3 hc
    · simp only [reportVisible, if_neg h]
      rw [ih seen c]
      constructor
      · rintro ⟨h1, h2, h3⟩
        exact ⟨List.mem_cons_of_mem a h1, h2, h3⟩
      · rintro ⟨h1, h2, h3⟩
        rcases List.mem_cons.mp h1 with rfl | h1
        · exact absurd ⟨h2, h3⟩ h
        · exact ⟨h1, h2, h3⟩

lemma nodup_reportVisible (occ : Cell → Bool) :
    ∀ (visits seen : List Cell), (reportVisible occ visits seen).Nodup := by
  intro visits
  induction visits with
  | nil => intro seen; simp [reportVisible]
  | cons a rest ih =>
    intro seen
    by_cases h : occ a = false ∧ a ∉ seen
    · simp only [reportVisible, if_pos h]
      rw [List.nodup_cons]
      refine ⟨fun hmem => ?_, ih (a :: seen)⟩
      exact ((mem_reportVisible occ rest (a :: seen) a).mp hmem).2.2
        (List.mem_cons_self a seen)
    · simp only [reportVisible, if_neg h]
      exact ih seen

lemma count_eq_one_of_nodup_mem {l : List Cell} {a : Cell}
    (hnd : l.Nodup) (hmem : a ∈ l) : l.count a = 1 := by
  induction l with
  | nil => simp at hmem
  | cons b l ih =>
    rw [List.nodup_cons] at hnd
    rcases List.mem_cons.mp hmem with hab | hmem
    · cases hab
      rw [List.count_cons_self, List.count_eq_zero_of_not_mem hnd.1]
    · have hne : a ≠ b := fun e => hnd.1 (e ▸ hmem)
      rw [List.count_cons_of_ne hne]
      exact ih hnd.2 hmem

/-- **C3.** Every voxel position scanned by the innermost loop of the
recursive caster over all 24 sectors that is not occluded is reported
visible to the (spec-modelled) deduplicating sink exactly once. -/
theorem c3_visible_reported_exactly_once (vol : Volume) (o : ℤ × ℤ × ℤ) (c : Cell)
    (hvisit : c ∈ (fullPass vol o).visits) (hocc : occLookup vol c = false) :
    (visibilityReport vol o).count c = 1 := by
  have hmem : c ∈ visibilityReport vol o :=
    (mem_reportVisible (occLookup vol) (fullPass vol o).visits [] c).mpr
      ⟨hvisit, hocc, by simp⟩
  exact count_eq_one_of_nodup_mem (nodup_reportVisible (occLookup vol) _ []) hmem

/-- Witness for C3: the single unoccluded cell of an otherwise fully
occluded volume is scanned and reported exactly once. -/
theorem c3_witness :
    (50, 50, 51) ∈ (fullPass (fun c => decide (c ≠ (50, 50, 51))) (50, 50, 50)).visits
    ∧ occLookup (fun c => decide (c ≠ (50, 50, 51))) (50, 50, 51) = false
    ∧ (visibilityReport (fun c => decide (c ≠ (50, 50, 51))) (50, 50, 50)).count
        (50, 50, 51) = 1 :=
  ⟨by with_unfolding_all decide, by decide,
   c3_visible_reported_exactly_once (fun c => decide (c ≠ (50, 50, 51))) (50, 50, 50)
     (50, 50, 51) (by with_unfolding_all decide) (by decide)⟩

/-!
## Bounds handling and monotonicity (C8, C9, C10)
-/

lemma castUsize_of_range {x : ℤ} (h0 : 0 ≤ x) (h : x < 2 ^ 31) :
    castUsize x = x.toNat := by
  unfold castUsize USIZE
  omega

lemma castUsize_big_of_neg {x : ℤ} (hlo : -(2 ^ 31) ≤ x) (h : x < 0) :
    VOL ≤ castUsize x := by
  unfold castUsize USIZE VOL
  omega

/-- **C8.** For `i32`-range coordinates: a mark with all three coordinates
inside the volume bounds sets exactly that one cell and reports no error;
a mark with any coordinate out of bounds reports the error and leaves the
volume entirely unchanged. -/
theorem c8_set_occluded (vol : Volume) (pos : ℤ × ℤ × ℤ)
    (hr : -(2 ^ 31) ≤ pos.1 ∧ pos.1 < 2 ^ 31
        ∧ -(2 ^ 31) ≤ pos.2.1 ∧ pos.2.1 < 2 ^ 31
        ∧ -(2 ^ 31) ≤ pos.2.2 ∧ pos.2.2 < 2 ^ 31) :
    (0 ≤ pos.1 ∧ pos.1 < (VOL : ℤ) ∧ 0 ≤ pos.2.1 ∧ pos.2.1 < (VOL : ℤ)
        ∧ 0 ≤ pos.2.2 ∧ pos.2.2 < (VOL : ℤ) →
      (set_occluded vol pos).2 = false
      ∧ (set_occluded vol pos).1 (pos.1.toNat, pos.2.1.toNat, pos.2.2.toNat) = true
      ∧ ∀ c : Cell, c ≠ (pos.1.toNat, pos.2.1.toNat, pos.2.2.toNat) →
          (set_occluded vol pos).1 c = vol c)
    ∧ (¬(0 ≤ pos.1 ∧ pos.1 < (VOL : ℤ) ∧ 0 ≤ pos.2.1 ∧ pos.2.1 < (VOL : ℤ)
        ∧ 0 ≤ pos.2.2 ∧ pos.2.2 < (VOL : ℤ)) →
      (set_occluded vol pos).2 = true ∧ (set_occluded vol pos).1 = vol) := by
  obtain ⟨r1, r2, r3, r4, r5, r6⟩ := hr
  have hVz : (VOL : ℤ) = 100 := rfl
  have hVn : VOL = 100 := rfl
  constructor
  · rintro ⟨h1, h2, h3, h4, h5, h6⟩
    have e1 : castUsize pos.1 = pos.1.toNat := castUsize_of_range h1 r2
    have e2 : castUsize pos.2.1 = pos.2.1.toNat := castUsize_of_range h3 r4
    have e3 : castUsize pos.2.2 = pos.2.2.toNat := castUsize_of_range h5 r6
    rw [hVz] at h2 h4 h6
    have hc : castUsize pos.1 < VOL ∧ castUsize pos.2.1 < VOL
        ∧ castUsize pos.2.2 < VOL := by
      rw [e1, e2, e3, hVn]
      omega
    unfold set_occluded
    rw [if_pos hc]
    refine ⟨rfl, ?_, ?_⟩
    · simp [e1, e2, e3]
    · intro c hc'
      have hne : ¬ c = (castUsize pos.1, castUsize pos.2.1, castUsize pos.2.2) := by
        rw [e1, e2, e3]; exact hc'
      simp [hne]
  · intro hout
    have hc : ¬(castUsize pos.1 < VOL ∧ castUsize pos.2.1 < VOL
        ∧ castUsize pos.2.2 < VOL) := by
      intro ⟨c1, c2, c3⟩
      apply hout
      rcases lt_or_le pos.1 0 with hneg | hpos
      · exact absurd c1 (not_lt.mpr (castUsize_big_of_neg r1 hneg))
      rcases lt_or_le pos.2.1 0 with hneg | hpos2
      · exact absurd c2 (not_lt.mpr (castUsize_big_of_neg r3 hneg))
      rcases lt_or_le pos.2.2 0 with hneg | hpos3
      · exact absurd c3 (not_lt.mpr (castUsize_big_of_neg r5 hneg))
      rw [castUsize_of_range hpos r2, hVn] at c1
      rw [castUsize_of_range hpos2 r4, hVn] at c2
      rw [castUsize_of_range hpos3 r6, hVn] at c3
      rw [hVz]
      refine ⟨hpos, by omega, hpos2, by omega, hpos3, by omega⟩
    unfold set_occluded
    rw [if_neg hc]
    exact ⟨rfl, rfl⟩

/-- Witness for C8: an in-bounds mark at `(1,2,3)` and an out-of-bounds mark
at `(-1,0,0)`. -/
theorem c8_witness :
    ((0 ≤ (1 : ℤ) ∧ (1 : ℤ) < (VOL : ℤ) ∧ 0 ≤ (2 : ℤ) ∧ (2 : ℤ) < (VOL : ℤ)
        ∧ 0 ≤ (3 : ℤ) ∧ (3 : ℤ) < (VOL : ℤ) →
      (set_occluded (fun _ => false) ((1 : ℤ), (2 : ℤ), (3 : ℤ))).2 = false
      ∧ (set_occluded (fun _ => false) ((1 : ℤ), (2 : ℤ), (3 : ℤ))).1
          ((1 : ℤ).toNat, (2 : ℤ).toNat, (3 : ℤ).toNat) = true
      ∧ ∀ c : Cell, c ≠ ((1 : ℤ).toNat, (2 : ℤ).toNat, (3 : ℤ).toNat) →
          (set_occluded (fun _ => false) ((1 : ℤ), (2 : ℤ), (3 : ℤ))).1 c = false)
    ∧ (¬(0 ≤ (1 : ℤ) ∧ (1 : ℤ) < (VOL : ℤ) ∧ 0 ≤ (2 : ℤ) ∧ (2 : ℤ) < (VOL : ℤ)
        ∧ 0 ≤ (3 : ℤ) ∧ (3 : ℤ) < (VOL : ℤ)) →
      (set_occluded (fun _ => false) ((1 : ℤ), (2 : ℤ), (3 : ℤ))).2 = true
      ∧ (set_occluded (fun _ => false) ((1 : ℤ), (2 : ℤ), (3 : ℤ))).1
          = (fun _ => false)))
    ∧ (set_occluded (fun _ => false) ((-1 : ℤ), (0 : ℤ), (0 : ℤ))).2 = true
    ∧ (set_occluded (fun _ => false) ((-1 : ℤ), (0 : ℤ), (0 : ℤ))).1
        = (fun _ => false) :=
  ⟨c8_set_occluded (fun _ => false) ((1 : ℤ), (2 : ℤ), (3 : ℤ)) (by decide),
   (c8_set_occluded (fun _ => false) ((-1 : ℤ), (0 : ℤ), (0 : ℤ)) (by decide)).2
     (by intro h; exact absurd h.1 (by decide))⟩

/-- **C9.** The occluder-scan lookup is total: a volume index with any
coordinate at or beyond the bounds reads as "not occluded"
(`Array3::get` returns `None` and `is_some_and` yields `false`), so such a
position contributes no occluder rectangle and the scan continues. -/
theorem c9_lookup_total (vol : Volume) (c : Cell)
    (h : ¬(c.1 < VOL ∧ c.2.1 < VOL ∧ c.2.2 < VOL)) :
    occLookup vol c = false := by
  unfold occLookup
  rcases Decidable.not_and_iff_or_not.mp h with h | h
  · simp [h]
  · rcases Decidable.not_and_iff_or_not.mp h with h | h <;> simp [h]

/-- Witness for C9 at the out-of-range index `(100, 0, 0)` of a fully
occluded volume. -/
theorem c9_witness : occLookup (fun _ => true) (100, 0, 0) = false :=
  c9_lookup_total (fun _ => true) (100, 0, 0) (by decide)

/-- A mutation/recomputation request against the core. -/
inductive Op where
  | mark (pos : ℤ × ℤ × ℤ)
  | recompute (origin : ℚ × ℚ × ℚ)

/-- Run one operation: `mark` writes through `set_occluded`; `recompute`
stores the new origin and runs the visibility pass, which only reads the
volume. -/
def runOp (s : DisplayState) : Op → DisplayState
  | .mark pos => { s with occluded := (set_occluded s.occluded pos).1 }
  | .recompute o => (set_origin_and_recompute s o).1

/-- Run a sequence of operations. -/
def runOps (s : DisplayState) (ops : List Op) : DisplayState := ops.foldl runOp s

/-- **C10.** The set of occluded cells never shrinks: across any sequence of
mark and recompute operations, a cell occluded at the start is still
occluded at the end — `set_occluded` only ever writes `true`, and a
visibility pass leaves the volume unchanged. -/
theorem c10_occluded_monotone (ops : List Op) (s : DisplayState) (c : Cell)
    (h : s.occluded c = true) : (runOps s ops).occluded c = true := by
  induction ops generalizing s with
  | nil => exact h
  | cons op rest ih =>
    show (runOps (runOp s op) rest).occluded c = true
    apply ih
    cases op with
    | mark pos =>
      show (set_occluded s.occluded pos).1 c = true
      unfold set_occluded
      split
      · by_cases hc : c = (castUsize pos.1, castUsize pos.2.1, castUsize pos.2.2) <;>
          simp [hc, h]
      · exact h
    | recompute o => exact h

/-- Witness for C10: a mark and a recompute leave an initially occluded cell
occluded. -/
theorem c10_witness :
    (runOps ⟨fun _ => true, (0, 0, 0)⟩
        [Op.mark ((1 : ℤ), (2 : ℤ), (3 : ℤ)), Op.recompute ((1 : ℚ), (1 : ℚ), (1 : ℚ))]).occluded
        (7, 7, 7) = true :=
  c10_occluded_monotone
    [Op.mark ((1 : ℤ), (2 : ℤ), (3 : ℤ)), Op.recompute ((1 : ℚ), (1 : ℚ), (1 : ℚ))]
    ⟨fun _ => true, (0, 0, 0)⟩ (7, 7, 7) rfl

end Shadow3d
